import Mathlib

/-
A shallow embedding of the monophonic web synthesizer (main script plus
random-lfo-processor.js), covering the monophonic note-priority state
machine, the envelope scheduling, the parameter routing for the reverb
wet/dry pair, and the held-value random LFO processor.

Modelling conventions:
* JavaScript numbers are modelled as exact rationals (ℚ).  All literals of
  the source (0.5, 0.005, 0.001, 0.0001, 0.2, 0.010) appear as the exact
  fractions 1/2, 1/200, 1/1000, 1/10000, 1/5, 1/100.
* Calls into the Web Audio automation API (cancelScheduledValues,
  setValueAtTime, linearRampToValueAtTime, setTargetAtTime) are recorded as
  an explicit list of scheduling actions on named parameter targets.
* midiToFreq (source: 440 * 2^((midiNote - 69) / 12)) produces irrational
  values; the note logic only passes these frequencies through unchanged,
  so the development is parameterized by an arbitrary pitch map
  midiToFreq : ℤ → ℚ.  Every theorem below holds for the actual pitch map.
* The JavaScript object pressedKeys is modelled as an insertion-ordered
  association list with the object get/set semantics (jsGet / jsSet).
-/

namespace MonoSynth

/-- The key-code to MIDI-note table (source: keyToNoteMap, lines 60-64). -/
def keyToNoteMap (code : String) : Option ℤ :=
  if code = "KeyA" then some 60
  else if code = "KeyW" then some 61
  else if code = "KeyS" then some 62
  else if code = "KeyE" then some 63
  else if code = "KeyD" then some 64
  else if code = "KeyF" then some 65
  else if code = "KeyT" then some 66
  else if code = "KeyG" then some 67
  else if code = "KeyY" then some 68
  else if code = "KeyH" then some 69
  else if code = "KeyU" then some 70
  else if code = "KeyJ" then some 71
  else if code = "KeyK" then some 72
  else none

/-- The five octave ratios (source: octaveMultipliers, line 49). -/
def octaveMultipliers : List ℚ := [1/8, 1/4, 1/2, 1, 2]

/-- Per-oscillator parameter record.  The octave field of the source may in
principle hold a non-number or NaN (the validation in calculateVcoFrequency
checks for this); `none` models exactly those non-numeric/NaN cases, while
`some i` models an integer octave index (the UI only ever stores clamped
integer step indices). -/
structure VcoParams where
  octave : Option ℤ
  deriving DecidableEq

/-- source: calculateVcoFrequency (lines 72-88).  Returns the oscillator
frequency, the (possibly corrected) parameter record - the source writes the
corrected index back into the params object - and whether the invalid-octave
warning was logged.  Every rational is finite, so the non-finite fallback
branch (source lines 83-86) is unreachable in this model and the function
totally returns the clamped product. -/
def calculateVcoFrequency (sampleRate baseFreq : ℚ) (vcoParams : VcoParams) :
    ℚ × VcoParams × Bool :=
  let checked : ℤ × Bool :=
    match vcoParams.octave with
    | none => (2, true)
    | some i => if i < 0 ∨ 5 ≤ i then (2, true) else (i, false)
  let octaveIndex := checked.1
  let warned := checked.2
  let vcoParams1 := if warned then { vcoParams with octave := some octaveIndex } else vcoParams
  let freq := baseFreq * (octaveMultipliers.getD octaveIndex.toNat 0)
  let safeFreq := max 20 (min (sampleRate / 2) freq)
  (safeFreq, vcoParams1, warned)

/-- The automatable audio parameters the embedded code schedules on. -/
inductive AudioParamId where
  | vco1Freq
  | vco2Freq
  | filterFreq
  | vcaGain
  | reverbWet
  | reverbDry
  deriving DecidableEq

/-- One Web Audio automation call recorded by the embedding. -/
inductive AudioAction where
  | cancelScheduledValues (target : AudioParamId) (time : ℚ)
  | setValueAtTime (target : AudioParamId) (value time : ℚ)
  | linearRampToValueAtTime (target : AudioParamId) (value time : ℚ)
  | setTargetAtTime (target : AudioParamId) (value time timeConstant : ℚ)
  deriving DecidableEq

/-- The parameter an action is scheduled on. -/
def actionTarget : AudioAction → AudioParamId
  | .cancelScheduledValues t _ => t
  | .setValueAtTime t _ _ => t
  | .linearRampToValueAtTime t _ _ => t
  | .setTargetAtTime t _ _ _ => t

/-- ADSR record (source: params.vcfEnv / params.vcaEnv). -/
structure EnvParams where
  attack : ℚ
  decay : ℚ
  sustain : ℚ
  release : ℚ
  deriving DecidableEq

/-- The slice of the global params object (source lines 24-45) consumed by
the note-priority and envelope logic. -/
structure SynthParams where
  portamentoTime : ℚ
  keyFollow : ℚ
  legato : ℚ
  vco1 : VcoParams
  vco2 : VcoParams
  vcfEnv : EnvParams
  vcaEnv : EnvParams
  /-- params.filter.frequency.value, the cutoff knob -/
  filterFrequency : ℚ
  /-- params.vcfEnvGain.gain.value, the envelope mod depth in Hz -/
  vcfEnvGainValue : ℚ
  /-- params.reverbWetGain.gain.value -/
  reverbWetGainValue : ℚ
  deriving DecidableEq

/-- The source defaults (lines 24-45) for the modelled parameter slice. -/
def defaultParams : SynthParams where
  portamentoTime := 0
  keyFollow := 0
  legato := 1
  vco1 := ⟨some 2⟩
  vco2 := ⟨some 2⟩
  vcfEnv := ⟨1/100, 1/10, 4/5, 1/5⟩
  vcaEnv := ⟨1/100, 1/10, 1, 1/5⟩
  filterFrequency := 20000
  vcfEnvGainValue := 4000
  reverbWetGainValue := 1/5

/-- source: triggerEnvelope (lines 283-327).  Schedules the attack/decay
stages on the given target and returns the recorded automation calls in
program order. -/
def triggerEnvelope (sampleRate : ℚ) (ps : SynthParams) (envParams : EnvParams)
    (target : AudioParamId) (sustainValue now : ℚ) (isVcf : Bool) (baseNote : ℤ) :
    List AudioAction :=
  let safeAttack := max (1/1000) envParams.attack
  let safeDecay := max (1/1000) envParams.decay
  if isVcf then
    let knobBaseFreq := ps.filterFrequency
    let envModAmount := ps.vcfEnvGainValue
    let keyFollowAmount : ℚ := if ps.keyFollow > 1/2 then ((baseNote : ℚ) - 69) / 12 else 0
    let keyFollowHz := keyFollowAmount * (knobBaseFreq * (1/5))
    let baseFreqWithKeyFollow := max 20 (knobBaseFreq + keyFollowHz)
    let attackPeakFreq := baseFreqWithKeyFollow + envModAmount
    let sustainLevelFreq := baseFreqWithKeyFollow + sustainValue * envModAmount
    let clampedBaseFreq := min (sampleRate / 2) (max 20 baseFreqWithKeyFollow)
    let clampedPeakFreq := min (sampleRate / 2) (max 20 attackPeakFreq)
    let clampedSustainFreq := min (sampleRate / 2) (max 20 sustainLevelFreq)
    [.cancelScheduledValues target now,
     .setValueAtTime target clampedBaseFreq now,
     .linearRampToValueAtTime target clampedPeakFreq (now + safeAttack),
     .linearRampToValueAtTime target clampedSustainFreq (now + safeAttack + safeDecay)]
  else
    let peakVal : ℚ := 1
    let sustainLevel := max (1/10000) sustainValue
    [.cancelScheduledValues target now,
     .setValueAtTime target (1/10000) now,
     .linearRampToValueAtTime target peakVal (now + safeAttack),
     .linearRampToValueAtTime target sustainLevel (now + safeAttack + safeDecay)]

/-- source: releaseEnvelope (lines 330-363).  The source reads
targetParam.value (the live instantaneous value of the automated parameter
at release time); that read is the explicit input currentParamValue here. -/
def releaseEnvelope (sampleRate : ℚ) (ps : SynthParams) (envParams : EnvParams)
    (target : AudioParamId) (currentParamValue now : ℚ) (isVcf : Bool) (baseNote : ℤ) :
    List AudioAction :=
  let safeRelease := max (1/1000) envParams.release
  let releaseTargetValue : ℚ :=
    if isVcf then
      let knobBaseFreq := ps.filterFrequency
      let keyFollowAmount : ℚ := if ps.keyFollow > 1/2 then ((baseNote : ℚ) - 69) / 12 else 0
      let keyFollowHz := keyFollowAmount * (knobBaseFreq * (1/5))
      let baseFreqWithKeyFollow := max 20 (knobBaseFreq + keyFollowHz)
      min (sampleRate / 2) (max 20 baseFreqWithKeyFollow)
    else
      1/10000
  [.cancelScheduledValues target now,
   .setValueAtTime target currentParamValue now,
   .linearRampToValueAtTime target releaseTargetValue (now + safeRelease)]

/-- source: triggerEnvelopes (lines 366-370); the VCA call leaves baseNote
at its default 69. -/
def triggerEnvelopes (sampleRate : ℚ) (ps : SynthParams) (note : ℤ) (now : ℚ) :
    List AudioAction :=
  triggerEnvelope sampleRate ps ps.vcfEnv .filterFreq ps.vcfEnv.sustain now true note ++
  triggerEnvelope sampleRate ps ps.vcaEnv .vcaGain ps.vcaEnv.sustain now false 69

/-- source: releaseEnvelopes (lines 373-377).  filterValue and vcaValue are
the live instantaneous values of filter.frequency and vcaGainNode.gain read
inside the two releaseEnvelope calls. -/
def releaseEnvelopes (sampleRate : ℚ) (ps : SynthParams) (note : ℤ)
    (filterValue vcaValue now : ℚ) : List AudioAction :=
  releaseEnvelope sampleRate ps ps.vcfEnv .filterFreq filterValue now true note ++
  releaseEnvelope sampleRate ps ps.vcaEnv .vcaGain vcaValue now false 69

/-- The monophonic voice state (source: currentNote / currentFrequency,
lines 57-58). -/
structure VoiceState where
  currentNote : Option ℤ
  currentFrequency : ℚ
  deriving DecidableEq

/-- source: noteOn (lines 382-440).  `running` models the guard
audioContext && audioContext.state === 'running' && vco1 && vco2 (the source
logs an error and returns when it fails).  Returns the updated params (the
calculateVcoFrequency calls may write a corrected octave back), the updated
voice state and the scheduled automation in program order. -/
def noteOn (sampleRate : ℚ) (running : Bool) (ps : SynthParams) (vs : VoiceState)
    (note : ℤ) (freq now : ℚ) : SynthParams × VoiceState × List AudioAction :=
  if running then
    let portamento := if ps.portamentoTime > 1/200 then ps.portamentoTime else 0
    let shouldRetrigger := ps.legato < 1/2
    let r1 := calculateVcoFrequency sampleRate freq ps.vco1
    let r2 := calculateVcoFrequency sampleRate freq ps.vco2
    let targetOsc1Freq := r1.1
    let targetOsc2Freq := r2.1
    let ps1 := { ps with vco1 := r1.2.1, vco2 := r2.2.1 }
    match vs.currentNote with
    | some _ =>
      let vs1 : VoiceState := ⟨some note, freq⟩
      let pitchActions :=
        if portamento > 0 then
          [.cancelScheduledValues .vco1Freq now,
           .cancelScheduledValues .vco2Freq now,
           .setTargetAtTime .vco1Freq targetOsc1Freq now (portamento / 4),
           .setTargetAtTime .vco2Freq targetOsc2Freq now (portamento / 4)]
        else
          [.cancelScheduledValues .vco1Freq now,
           .cancelScheduledValues .vco2Freq now,
           .setValueAtTime .vco1Freq targetOsc1Freq now,
           .setValueAtTime .vco2Freq targetOsc2Freq now]
      let envActions := if shouldRetrigger then triggerEnvelopes sampleRate ps1 note now else []
      (ps1, vs1, pitchActions ++ envActions)
    | none =>
      let vs1 : VoiceState := ⟨some note, freq⟩
      (ps1, vs1,
       [.cancelScheduledValues .vco1Freq now,
        .cancelScheduledValues .vco2Freq now,
        .setValueAtTime .vco1Freq targetOsc1Freq now,
        .setValueAtTime .vco2Freq targetOsc2Freq now] ++
       triggerEnvelopes sampleRate ps1 note now)
  else
    (ps, vs, [])

/-- The held note keys: pressedKeys entries that are down and map to a note
(the filter of source line 450). -/
def heldNoteKeys (pressed : List (String × Bool)) : List (String × Bool) :=
  pressed.filter (fun p => p.2 && (keyToNoteMap p.1).isSome)

/-- The remaining physically held note keys (source: noteOff line 450 -
Object.keys(pressedKeys).filter(code => pressedKeys[code] && keyToNoteMap[code])),
in object insertion order. -/
def remainingHeldCodes (pressed : List (String × Bool)) : List String :=
  (heldNoteKeys pressed).map (fun p => p.1)

/-- The step of the forEach loop of noteOff (source lines 459-465). -/
def lastHeldStep (midiToFreq : ℤ → ℚ) (acc : ℤ × ℚ) (code : String) : ℤ × ℚ :=
  match keyToNoteMap code with
  | some heldNote => if acc.1 < heldNote then (heldNote, midiToFreq heldNote) else acc
  | none => acc

/-- The forEach loop of noteOff (source lines 457-465): scans the held codes
keeping the highest MIDI note seen and its frequency, starting from the
sentinel pair (-1, 0). -/
def lastHeldFold (midiToFreq : ℤ → ℚ) (codes : List String) : ℤ × ℚ :=
  codes.foldl (lastHeldStep midiToFreq) ((-1 : ℤ), (0 : ℚ))

/-- source: noteOff (lines 442-502).  initialized/resumed model
isAudioInitialized/isAudioResumed (the source also checks vco1/vco2, which
exist exactly when initialized).  pressed is the pressedKeys object after
the keyup handler has already cleared the released key.  filterValue and
vcaValue are the live parameter values read if the release path runs. -/
def noteOff (midiToFreq : ℤ → ℚ) (sampleRate : ℚ) (initialized resumed : Bool)
    (ps : SynthParams) (vs : VoiceState) (pressed : List (String × Bool))
    (filterValue vcaValue : ℚ) (note : ℤ) (now : ℚ) :
    SynthParams × VoiceState × List AudioAction :=
  if initialized && resumed then
    match vs.currentNote with
    | none => (ps, vs, [])
    | some currentNote =>
      if note = currentNote then
        let codes := remainingHeldCodes pressed
        if 0 < codes.length then
          let last := lastHeldFold midiToFreq codes
          let lastNote := last.1
          let lastNoteFreq := last.2
          let portamento := if ps.portamentoTime > 1/200 then ps.portamentoTime else 0
          let r1 := calculateVcoFrequency sampleRate lastNoteFreq ps.vco1
          let r2 := calculateVcoFrequency sampleRate lastNoteFreq ps.vco2
          let ps1 := { ps with vco1 := r1.2.1, vco2 := r2.2.1 }
          let vs1 : VoiceState := ⟨some lastNote, lastNoteFreq⟩
          let pitchActions :=
            if portamento > 0 then
              [.cancelScheduledValues .vco1Freq now,
               .cancelScheduledValues .vco2Freq now,
               .setTargetAtTime .vco1Freq r1.1 now (portamento / 4),
               .setTargetAtTime .vco2Freq r2.1 now (portamento / 4)]
            else
              [.cancelScheduledValues .vco1Freq now,
               .cancelScheduledValues .vco2Freq now,
               .setValueAtTime .vco1Freq r1.1 now,
               .setValueAtTime .vco2Freq r2.1 now]
          -- crucially, no envelope retrigger here (source line 488)
          (ps1, vs1, pitchActions)
        else
          (ps, ⟨none, 0⟩, releaseEnvelopes sampleRate ps currentNote filterValue vcaValue now)
      else
        (ps, vs, [])
  else
    (ps, vs, [])

/-! ### Keyboard handlers and the event-driven voice state machine -/

/-- JavaScript object property read pressedKeys[code] with a falsy default. -/
def jsGet : List (String × Bool) → String → Bool
  | [], _ => false
  | (k, v) :: rest, code => if code = k then v else jsGet rest code

/-- JavaScript object property write pressedKeys[code] = v: updates the
existing property in place (object key order is insertion order) or appends
a new one. -/
def jsSet : List (String × Bool) → String → Bool → List (String × Bool)
  | [], code, v => [(code, v)]
  | (k, w) :: rest, code, v =>
    if code = k then (code, v) :: rest else (k, w) :: jsSet rest code v

/-- Console output levels the handlers surface (console.warn / console.error). -/
inductive LogMsg where
  | warn
  | error
  deriving DecidableEq

/-- The module-level mutable state the keyboard handlers touch. -/
structure SynthState where
  params : SynthParams
  voice : VoiceState
  pressedKeys : List (String × Bool)
  isAudioInitialized : Bool
  isAudioResumed : Bool
  deriving DecidableEq

/-- source: the keydown listener (lines 751-800), restricted to the
note-playing path (the knob-arrow branch returns before this path only for
arrow keys).  modifierHeld models e.metaKey || e.ctrlKey || e.altKey;
repeatFlag models e.repeat; resumeOk models whether the awaited
ensureAudioContextResumed() attempt succeeds (that call both returns the
outcome and stores it in isAudioResumed).  In this closed model,
isAudioResumed = true coincides with the context being in the running
state, so noteOn is invoked with running := canPlay. -/
def handleKeydown (midiToFreq : ℤ → ℚ) (sampleRate : ℚ) (s : SynthState)
    (code : String) (repeatFlag modifierHeld resumeOk : Bool) (now : ℚ) :
    SynthState × List AudioAction × List LogMsg :=
  if modifierHeld then (s, [], [])
  else
    match keyToNoteMap code with
    | none => (s, [], [])
    | some note =>
      if jsGet s.pressedKeys code || repeatFlag then (s, [], [])
      else
        if s.isAudioResumed then
          let pressed1 := jsSet s.pressedKeys code true
          let freq := midiToFreq note
          let r := noteOn sampleRate true s.params s.voice note freq now
          ({ s with params := r.1, voice := r.2.1, pressedKeys := pressed1 }, r.2.2, [])
        else if s.isAudioInitialized then
          if resumeOk then
            let pressed1 := jsSet s.pressedKeys code true
            let freq := midiToFreq note
            let r := noteOn sampleRate true s.params s.voice note freq now
            ({ s with params := r.1, voice := r.2.1
                      pressedKeys := pressed1, isAudioResumed := true }, r.2.2, [])
          else
            ({ s with isAudioResumed := false }, [], [.warn])
        else
          (s, [], [.error])

/-- source: the keyup listener (lines 804-827), note-release path.  The
handler clears pressedKeys[e.code] before calling noteOff.  filterValue and
vcaValue are the live parameter values noteOff would read on the release
path. -/
def handleKeyup (midiToFreq : ℤ → ℚ) (sampleRate : ℚ) (s : SynthState)
    (code : String) (filterValue vcaValue now : ℚ) :
    SynthState × List AudioAction :=
  match keyToNoteMap code with
  | none => (s, [])
  | some note =>
    if jsGet s.pressedKeys code then
      let pressed1 := jsSet s.pressedKeys code false
      let r := noteOff midiToFreq sampleRate s.isAudioInitialized s.isAudioResumed
        s.params s.voice pressed1 filterValue vcaValue note now
      ({ s with params := r.1, voice := r.2.1, pressedKeys := pressed1 }, r.2.2)
    else
      (s, [])

/-- One keyboard event with the external inputs its handler consumes. -/
inductive KeyEvent where
  | down (code : String) (repeatFlag modifierHeld resumeOk : Bool) (now : ℚ)
  | up (code : String) (filterValue vcaValue now : ℚ)

/-- State transition of one keyboard event. -/
def stepEvent (midiToFreq : ℤ → ℚ) (sampleRate : ℚ) (s : SynthState) :
    KeyEvent → SynthState
  | .down code repeatFlag modifierHeld resumeOk now =>
    (handleKeydown midiToFreq sampleRate s code repeatFlag modifierHeld resumeOk now).1
  | .up code filterValue vcaValue now =>
    (handleKeyup midiToFreq sampleRate s code filterValue vcaValue now).1

/-- Processing a sequence of keyboard events. -/
def runEvents (midiToFreq : ℤ → ℚ) (sampleRate : ℚ) (s : SynthState)
    (events : List KeyEvent) : SynthState :=
  events.foldl (stepEvent midiToFreq sampleRate) s

/-! ### Reverb wet/dry routing (source: initAudio lines 193-195 and
updateParameter lines 639-642) -/

/-- source: initAudio lines 193-195: the initial wet gain is the stored
parameter value and the dry gain is set to 1 - wetLevel. -/
def initReverbGains (wetParamValue : ℚ) : ℚ × ℚ :=
  (wetParamValue, 1 - wetParamValue)

/-- source: updateParameter lines 622 and 639-642: when the audio engine is
ready (isAudioInitialized && (isAudioResumed || forceUpdate)), an update of
reverbWetGain.gain.value schedules the wet target to the new value and the
dry target to its complement, both with the 0.010 s smoothing constant;
when the engine is not ready both updates are skipped. -/
def updateReverbWetAudio (ready : Bool) (valueToSet now : ℚ) : List AudioAction :=
  if ready then
    [.setTargetAtTime .reverbWet valueToSet now (1/100),
     .setTargetAtTime .reverbDry (1 - valueToSet) now (1/100)]
  else
    []

/-! ### The held-value random LFO processor (random-lfo-processor.js) -/

/-- The per-instance state of RandomLfoProcessor.  updateInterval = none
models the JavaScript value Infinity that _recalculateInterval stores when
frequency ≤ 0 (phase ≥ Infinity is always false, so no refresh happens). -/
structure LfoState where
  phase : ℚ
  currentValue : ℚ
  updateInterval : Option ℚ
  lastFrequency : ℚ
  deriving DecidableEq

/-- source: RandomLfoProcessor constructor (lines 15-22): phase 0, value 0,
then _recalculateInterval(5). -/
def lfoInitialState (sampleRate : ℚ) : LfoState :=
  ⟨0, 0, some (sampleRate / 5), 5⟩

/-- source: _recalculateInterval (lines 25-32). -/
def recalculateInterval (sampleRate frequency : ℚ) (st : LfoState) : LfoState :=
  { st with
    updateInterval := if frequency > 0 then some (sampleRate / frequency) else none
    lastFrequency := frequency }

/-- The result of running the per-sample loop of process: final phase,
final held value, number of random draws consumed, and the per-frame output
values in order. -/
structure FrameRun where
  phase : ℚ
  value : ℚ
  draws : ℕ
  outs : List ℚ
  deriving DecidableEq

/-- The per-sample loop of process (source lines 47-62): each frame the
phase advances by 1; when it reaches the samples-per-cycle threshold the
threshold is subtracted (remainder preserved) and a fresh random value
rand * 2 - 1 is drawn, rand being the next value of the Math.random stream
rs.  samplesPerCycle = none models Infinity (never refresh). -/
def runFrames (samplesPerCycle : Option ℚ) (rs : ℕ → ℚ) :
    ℕ → ℚ → ℚ → ℕ → FrameRun
  | 0, phase, value, draws => ⟨phase, value, draws, []⟩
  | n + 1, phase, value, draws =>
    let phase1 := phase + 1
    let next : ℚ × ℚ × ℕ :=
      match samplesPerCycle with
      | some spc =>
        if phase1 ≥ spc then (phase1 - spc, rs draws * 2 - 1, draws + 1)
        else (phase1, value, draws)
      | none => (phase1, value, draws)
    let rest := runFrames samplesPerCycle rs n next.1 next.2.1 next.2.2
    ⟨rest.phase, rest.value, rest.draws, next.2.1 :: rest.outs⟩

/-- source: process (lines 34-65).  frequencyValue is the k-rate value
parameters.frequency[0]; blockLen is output[0].length; the inner channel
loop writes the identical held value to every channel, so the multichannel
output is the per-frame value list replicated across numChannels channels.
Returns the new processor state, the advanced random-stream position, and
the output as output[channel][frame]. -/
def lfoProcess (sampleRate frequencyValue : ℚ) (rs : ℕ → ℚ)
    (blockLen numChannels : ℕ) (st : LfoState) (draws : ℕ) :
    LfoState × ℕ × List (List ℚ) :=
  let st1 :=
    if frequencyValue ≠ st.lastFrequency then recalculateInterval sampleRate frequencyValue st
    else st
  let r := runFrames st1.updateInterval rs blockLen st1.phase st1.currentValue draws
  ({ st1 with phase := r.phase, currentValue := r.value }, r.draws,
   List.replicate numChannels r.outs)

/-- Iterated process calls: one entry per render quantum, each with its own
k-rate frequency value, block length and channel count. -/
def lfoProcessMany (sampleRate : ℚ) (rs : ℕ → ℚ) :
    List (ℚ × ℕ × ℕ) → LfoState → ℕ → LfoState × ℕ × List (List (List ℚ))
  | [], st, draws => (st, draws, [])
  | b :: bs, st, draws =>
    let r := lfoProcess sampleRate b.1 rs b.2.1 b.2.2 st draws
    let rest := lfoProcessMany sampleRate rs bs r.1 r.2.1
    (rest.1, rest.2.1, r.2.2 :: rest.2.2)

/-! ### Claim-side definitions -/

/-- The values an action list schedules (the value arguments of every
setValueAtTime / linearRampToValueAtTime / setTargetAtTime call). -/
def scheduledValues : List AudioAction → List ℚ
  | [] => []
  | .cancelScheduledValues _ _ :: rest => scheduledValues rest
  | .setValueAtTime _ v _ :: rest => v :: scheduledValues rest
  | .linearRampToValueAtTime _ v _ :: rest => v :: scheduledValues rest
  | .setTargetAtTime _ v _ _ :: rest => v :: scheduledValues rest

/-- The filter-envelope trigger schedule exactly as the specification words
it: the base is the cutoff-knob value plus the key-follow offset, with no
floor applied to the base before the envelope depth is added, and every
scheduled cutoff clamped to the range from 20 Hz to the nyquist
frequency.  This definition follows the claim, for comparison with the
source-derived triggerEnvelope. -/
def specFilterEnvSchedule (sampleRate : ℚ) (ps : SynthParams) (envParams : EnvParams)
    (sustainValue now : ℚ) (baseNote : ℤ) : List AudioAction :=
  let base := ps.filterFrequency +
    (if ps.keyFollow > 1/2 then ((baseNote : ℚ) - 69) / 12 else 0) * (ps.filterFrequency * (1/5))
  let clamp : ℚ → ℚ := fun x => min (sampleRate / 2) (max 20 x)
  let safeAttack := max (1/1000) envParams.attack
  let safeDecay := max (1/1000) envParams.decay
  [.cancelScheduledValues .filterFreq now,
   .setValueAtTime .filterFreq (clamp base) now,
   .linearRampToValueAtTime .filterFreq (clamp (base + ps.vcfEnvGainValue)) (now + safeAttack),
   .linearRampToValueAtTime .filterFreq (clamp (base + sustainValue * ps.vcfEnvGainValue))
     (now + safeAttack + safeDecay)]

/-- The draw cadence exactly as the specification words it: a new random
value is drawn exactly every ceil(sampleRate / f) frames, so after n frames
exactly n / ceil(samplesPerCycle) values (integer division) have been
drawn.  This definition follows the claim, for comparison with the
source-derived runFrames. -/
def specDrawsEveryCeil (samplesPerCycle : ℚ) (rs : ℕ → ℚ) (v0 : ℚ) : Prop :=
  ∀ n : ℕ, (runFrames (some samplesPerCycle) rs n 0 v0 0).draws =
    n / (Int.ceil samplesPerCycle).toNat

/-- The inductive invariant of the keyboard-event state machine: the voice
is sounding exactly when some note key is held; the sounding note is one of
the held notes; keys only get held while the engine is resumed; resumption
implies initialization. -/
def StateInv (s : SynthState) : Prop :=
  (s.voice.currentNote = none ↔ heldNoteKeys s.pressedKeys = []) ∧
  (∀ n, s.voice.currentNote = some n →
    ∃ c, keyToNoteMap c = some n ∧ (c, true) ∈ s.pressedKeys) ∧
  (heldNoteKeys s.pressedKeys ≠ [] → s.isAudioResumed = true) ∧
  (s.isAudioResumed = true → s.isAudioInitialized = true)

/-! ### Theorems -/

/-- C7: calculateVcoFrequency never throws (it is a total function): a
valid octave index i selects the i-th of the five fixed ratios and leaves
the parameter record and warning flag untouched; an out-of-range index
(and the non-numeric/NaN case, octave = none) is corrected to index 2 -
multiplier 1/2, written back into the parameter record - and logs the
warning; the returned frequency is the product with the selected
multiplier clamped between 20 Hz and sampleRate / 2.  (Every rational is
finite, so the non-finite fallback branch of the source is unreachable in
this model.) -/
theorem calculateVcoFrequency_safe (sampleRate baseFreq : ℚ) (p : VcoParams) :
    (∀ i : ℤ, p.octave = some i → 0 ≤ i → i < 5 →
      calculateVcoFrequency sampleRate baseFreq p =
        (max 20 (min (sampleRate / 2) (baseFreq * octaveMultipliers.getD i.toNat 0)),
         p, false)) ∧
    (∀ i : ℤ, p.octave = some i → i < 0 ∨ 5 ≤ i →
      calculateVcoFrequency sampleRate baseFreq p =
        (max 20 (min (sampleRate / 2) (baseFreq * (1/2))), ⟨some 2⟩, true)) ∧
    (p.octave = none →
      calculateVcoFrequency sampleRate baseFreq p =
        (max 20 (min (sampleRate / 2) (baseFreq * (1/2))), ⟨some 2⟩, true)) := by
  obtain ⟨o⟩ := p
  refine ⟨?_, ?_, ?_⟩
  · rintro i rfl h0 h5
    have hrange : ¬ (i < 0 ∨ 5 ≤ i) := by omega
    simp [calculateVcoFrequency, hrange]
  · rintro i rfl hbad
    simp only [calculateVcoFrequency, if_pos hbad]
    rfl
  · rintro rfl
    rfl

/-- C7 witness: the out-of-range index 7 is corrected to index 2 (ratio
1/2, so 440 maps to 220), written back, and flagged; the valid index 0
selects the ratio 1/8. -/
theorem calculateVcoFrequency_safe_witness :
    calculateVcoFrequency 44100 440 ⟨some 7⟩ = (220, ⟨some 2⟩, true) ∧
    calculateVcoFrequency 44100 440 ⟨some 0⟩ = (55, ⟨some 0⟩, false) := by
  constructor
  · have h := (calculateVcoFrequency_safe 44100 440 ⟨some 7⟩).2.1 7 rfl (by norm_num)
    rw [h]; norm_num
  · have h := (calculateVcoFrequency_safe 44100 440 ⟨some 0⟩).1 0 rfl (by norm_num) (by norm_num)
    rw [h]; norm_num [octaveMultipliers]

/-- C5: releasing the gate-gain (amplitude) envelope first cancels all
pending automation on the target, then holds the parameter at its current
instantaneous value at the release time, then ramps it linearly to the
release target 1/10000 (which is not zero) over the release duration
floored to 1/1000 s. -/
theorem releaseEnvelope_vca_schedule (sampleRate : ℚ) (ps : SynthParams)
    (envParams : EnvParams) (currentParamValue now : ℚ) (baseNote : ℤ) :
    releaseEnvelope sampleRate ps envParams .vcaGain currentParamValue now false baseNote =
      [.cancelScheduledValues .vcaGain now,
       .setValueAtTime .vcaGain currentParamValue now,
       .linearRampToValueAtTime .vcaGain (1/10000)
         (now + max (1/1000) envParams.release)] ∧
    (1/10000 : ℚ) ≠ 0 ∧
    (1/1000 : ℚ) ≤ max (1/1000) envParams.release ∧ (0 : ℚ) < 1/1000 := by
  refine ⟨by simp [releaseEnvelope], by norm_num, le_max_left _ _, by norm_num⟩

/-- C10: the reverb dry gain is always the complement of the wet level: at
graph initialization the dry gain is set to 1 - wetLevel, and every update
of the reverb wet parameter through the parameter router schedules the wet
target to the new value and the dry target to 1 - value (so the two always
sum to 1); when the engine is not ready, neither is touched. -/
theorem reverb_dry_complements_wet (w v now : ℚ) :
    (initReverbGains w).2 = 1 - (initReverbGains w).1 ∧
    (initReverbGains w).1 + (initReverbGains w).2 = 1 ∧
    updateReverbWetAudio true v now =
      [.setTargetAtTime .reverbWet v now (1/100),
       .setTargetAtTime .reverbDry (1 - v) now (1/100)] ∧
    v + (1 - v) = 1 ∧
    updateReverbWetAudio false v now = [] := by
  refine ⟨rfl, by simp [initReverbGains], by simp [updateReverbWetAudio], by ring, rfl⟩

/-- C6 counterexample: with the cutoff knob at 10 Hz (key-follow off,
envelope depth 4000, sustain 1/2, sampleRate 44100) the source floors the
key-followed base at 20 Hz before adding the envelope depth, so it ramps
the attack peak to 20 + 4000 = 4020 Hz, while the claimed schedule (base =
knob value + offset with no floor) would ramp to 10 + 4000 = 4010 Hz: the
schedules differ. -/
theorem triggerEnvelope_vcf_counterexample :
    triggerEnvelope 44100
      ⟨0, 0, 1, ⟨some 2⟩, ⟨some 2⟩, ⟨1/100, 1/10, 4/5, 1/5⟩, ⟨1/100, 1/10, 1, 1/5⟩,
       10, 4000, 1/5⟩
      ⟨1/100, 1/10, 4/5, 1/5⟩ .filterFreq (1/2) 0 true 69 ≠
    specFilterEnvSchedule 44100
      ⟨0, 0, 1, ⟨some 2⟩, ⟨some 2⟩, ⟨1/100, 1/10, 4/5, 1/5⟩, ⟨1/100, 1/10, 1, 1/5⟩,
       10, 4000, 1/5⟩
      ⟨1/100, 1/10, 4/5, 1/5⟩ (1/2) 0 69 := by
  norm_num [triggerEnvelope, specFilterEnvSchedule]

/-- C6 (amended): for every trigger of the filter-cutoff envelope with
sounding note n, the base equals the cutoff-knob value plus the key-follow
offset (proportional to (n - 69)/12 octaves, scaled by a fifth of the base
cutoff, when key-follow is enabled) FLOORED AT 20 Hz; the attack peak is
that floored base plus the envelope depth, the sustain value is the floored
base plus sustainLevel times the depth, and every cutoff value actually
scheduled on the filter is clamped into the range from 20 Hz up to the
nyquist frequency sampleRate / 2. -/
theorem triggerEnvelope_vcf_schedule (sampleRate : ℚ) (ps : SynthParams)
    (envParams : EnvParams) (sustainValue now : ℚ) (baseNote : ℤ) :
    (triggerEnvelope sampleRate ps envParams .filterFreq sustainValue now true baseNote =
      let base := max 20 (ps.filterFrequency +
        (if ps.keyFollow > 1/2 then ((baseNote : ℚ) - 69) / 12 else 0) *
          (ps.filterFrequency * (1/5)))
      [.cancelScheduledValues .filterFreq now,
       .setValueAtTime .filterFreq (min (sampleRate / 2) (max 20 base)) now,
       .linearRampToValueAtTime .filterFreq
         (min (sampleRate / 2) (max 20 (base + ps.vcfEnvGainValue)))
         (now + max (1/1000) envParams.attack),
       .linearRampToValueAtTime .filterFreq
         (min (sampleRate / 2) (max 20 (base + sustainValue * ps.vcfEnvGainValue)))
         (now + max (1/1000) envParams.attack + max (1/1000) envParams.decay)]) ∧
    (20 ≤ sampleRate / 2 →
      ∀ v ∈ scheduledValues
        (triggerEnvelope sampleRate ps envParams .filterFreq sustainValue now true baseNote),
        20 ≤ v ∧ v ≤ sampleRate / 2) := by
  constructor
  · rfl
  · intro h v hv
    simp only [triggerEnvelope, if_pos, scheduledValues, List.mem_cons,
      List.not_mem_nil, or_false] at hv
    rcases hv with rfl | rfl | rfl <;>
      exact ⟨le_min h (le_max_left _ _), min_le_left _ _⟩

/-- C6 witness: at the defaults (knob 20000 Hz, key-follow off, depth
4000) the first scheduled cutoff is 20000 Hz, inside the range. -/
theorem triggerEnvelope_vcf_schedule_witness :
    20 ≤ (scheduledValues (triggerEnvelope 44100 defaultParams ⟨1/100, 1/10, 4/5, 1/5⟩
        .filterFreq (4/5) 0 true 60)).headD 0 ∧
    (scheduledValues (triggerEnvelope 44100 defaultParams ⟨1/100, 1/10, 4/5, 1/5⟩
        .filterFreq (4/5) 0 true 60)).headD 0 ≤ 44100 / 2 :=
  (triggerEnvelope_vcf_schedule 44100 defaultParams ⟨1/100, 1/10, 4/5, 1/5⟩ (4/5) 0 60).2
    (by norm_num) _ (by norm_num [triggerEnvelope, scheduledValues, defaultParams])

/-- C4: when the audio engine is initialized but not resumed (and the
resume attempt fails), a key-down for a fresh note key leaves the entire
synth state unchanged - currentNote, currentFrequency and the pressedKeys
bookkeeping are untouched - schedules nothing, queues nothing, and surfaces
exactly one console warning; and the noteOn guard itself is a pure no-op
when the context is not running. -/
theorem noteOn_rejected_when_not_ready :
    (∀ (midiToFreq : ℤ → ℚ) (sampleRate : ℚ) (s : SynthState) (code : String)
       (note : ℤ) (now : ℚ),
      s.isAudioInitialized = true → s.isAudioResumed = false →
      keyToNoteMap code = some note → jsGet s.pressedKeys code = false →
      handleKeydown midiToFreq sampleRate s code false false false now =
        (s, [], [.warn])) ∧
    (∀ (sampleRate : ℚ) (ps : SynthParams) (vs : VoiceState) (note : ℤ) (freq now : ℚ),
      noteOn sampleRate false ps vs note freq now = (ps, vs, [])) := by
  constructor
  · intro midiToFreq sampleRate s code note now hinit hres hnote hget
    obtain ⟨ps, vs, pk, init, res⟩ := s
    simp only at hinit hres hget
    subst hinit hres
    simp [handleKeydown, hnote, hget]
  · intro sampleRate ps vs note freq now
    simp [noteOn]

/-- C4 witness: a key-down of KeyA on an initialized but suspended engine
whose resume attempt fails is a pure no-op plus a warning. -/
theorem noteOn_rejected_when_not_ready_witness :
    handleKeydown (fun _ => 440) 44100
      ⟨defaultParams, ⟨none, 0⟩, [], true, false⟩ "KeyA" false false false 0 =
      (⟨defaultParams, ⟨none, 0⟩, [], true, false⟩, [], [.warn]) :=
  noteOn_rejected_when_not_ready.1 (fun _ => 440) 44100
    ⟨defaultParams, ⟨none, 0⟩, [], true, false⟩ "KeyA" 60 0 rfl rfl (by decide) rfl

/-- C1: a key-down for note while the voice is sounding prevNote (with the
audio engine running) updates the voice to the new note and frequency; both
envelopes (filter and amplitude targets) are retriggered if and only if the
legato parameter is below 1/2 (legato OFF); with legato ON every scheduled
action touches only the oscillator pitches; and the pitch transition is an
exponential glide (setTargetAtTime with time constant portamento/4) when
the portamento time exceeds 1/200 s, and an instantaneous jump
(setValueAtTime) otherwise. -/
theorem noteOn_note_change (sampleRate : ℚ) (ps : SynthParams) (vs : VoiceState)
    (prevNote note : ℤ) (freq now : ℚ)
    (hcur : vs.currentNote = some prevNote) (hne : note ≠ prevNote) :
    let acts := (noteOn sampleRate true ps vs note freq now).2.2
    (noteOn sampleRate true ps vs note freq now).2.1 = ⟨some note, freq⟩ ∧
    ((∃ a ∈ acts, actionTarget a = .filterFreq) ↔ ps.legato < 1/2) ∧
    ((∃ a ∈ acts, actionTarget a = .vcaGain) ↔ ps.legato < 1/2) ∧
    (¬ ps.legato < 1/2 →
      ∀ a ∈ acts, actionTarget a = .vco1Freq ∨ actionTarget a = .vco2Freq) ∧
    (ps.portamentoTime > 1/200 →
      AudioAction.setTargetAtTime .vco1Freq (calculateVcoFrequency sampleRate freq ps.vco1).1
        now (ps.portamentoTime / 4) ∈ acts ∧
      AudioAction.setTargetAtTime .vco2Freq (calculateVcoFrequency sampleRate freq ps.vco2).1
        now (ps.portamentoTime / 4) ∈ acts ∧
      (∀ v t, AudioAction.setValueAtTime .vco1Freq v t ∉ acts) ∧
      (∀ v t, AudioAction.setValueAtTime .vco2Freq v t ∉ acts)) ∧
    (¬ ps.portamentoTime > 1/200 →
      AudioAction.setValueAtTime .vco1Freq (calculateVcoFrequency sampleRate freq ps.vco1).1
        now ∈ acts ∧
      AudioAction.setValueAtTime .vco2Freq (calculateVcoFrequency sampleRate freq ps.vco2).1
        now ∈ acts ∧
      (∀ tg v t c, AudioAction.setTargetAtTime tg v t c ∉ acts)) := by
  by_cases hp : ps.portamentoTime > 1/200
  · have hp0 : ps.portamentoTime > 0 := by linarith
    by_cases hl : ps.legato < 1/2
    · simp only [noteOn, hcur, if_pos hp, if_pos hp0, if_pos hl]
      simp [triggerEnvelopes, triggerEnvelope, actionTarget]
      exact ⟨by linarith, by linarith⟩
    · simp only [noteOn, hcur, if_pos hp, if_pos hp0, if_neg hl]
      simp [triggerEnvelopes, triggerEnvelope, actionTarget]
      exact ⟨by linarith, by linarith⟩
  · have hp0 : ¬ (0:ℚ) > 0 := by norm_num
    by_cases hl : ps.legato < 1/2
    · simp only [noteOn, hcur, if_neg hp, if_neg hp0, if_pos hl]
      simp [triggerEnvelopes, triggerEnvelope, actionTarget]
      exact ⟨by linarith, by linarith⟩
    · simp only [noteOn, hcur, if_neg hp, if_neg hp0, if_neg hl]
      simp [triggerEnvelopes, triggerEnvelope, actionTarget]
      exact ⟨by linarith, by linarith⟩

/-- C1 witness: retrigger case at concrete inputs - legato 0 (OFF),
portamento 0, sounding note 60, new note 64. -/
theorem noteOn_note_change_witness :
    let ps : SynthParams := { defaultParams with legato := 0 }
    let acts := (noteOn 44100 true ps ⟨some 60, 440⟩ 64 450 0).2.2
    (noteOn 44100 true ps ⟨some 60, 440⟩ 64 450 0).2.1 = ⟨some 64, 450⟩ ∧
    ((∃ a ∈ acts, actionTarget a = .filterFreq) ↔ (0 : ℚ) < 1/2) ∧
    ((∃ a ∈ acts, actionTarget a = .vcaGain) ↔ (0 : ℚ) < 1/2) ∧
    (¬ (0 : ℚ) < 1/2 →
      ∀ a ∈ acts, actionTarget a = .vco1Freq ∨ actionTarget a = .vco2Freq) ∧
    ((0 : ℚ) > 1/200 →
      AudioAction.setTargetAtTime .vco1Freq (calculateVcoFrequency 44100 450 ⟨some 2⟩).1
        0 (0 / 4) ∈ acts ∧
      AudioAction.setTargetAtTime .vco2Freq (calculateVcoFrequency 44100 450 ⟨some 2⟩).1
        0 (0 / 4) ∈ acts ∧
      (∀ v t, AudioAction.setValueAtTime .vco1Freq v t ∉ acts) ∧
      (∀ v t, AudioAction.setValueAtTime .vco2Freq v t ∉ acts)) ∧
    (¬ (0 : ℚ) > 1/200 →
      AudioAction.setValueAtTime .vco1Freq (calculateVcoFrequency 44100 450 ⟨some 2⟩).1
        0 ∈ acts ∧
      AudioAction.setValueAtTime .vco2Freq (calculateVcoFrequency 44100 450 ⟨some 2⟩).1
        0 ∈ acts ∧
      (∀ tg v t c, AudioAction.setTargetAtTime tg v t c ∉ acts)) :=
  noteOn_note_change 44100 { defaultParams with legato := 0 } ⟨some 60, 440⟩ 60 64 450 0
    rfl (by decide)

/-- Every note in the key table lies between 60 and 72. -/
theorem keyToNoteMap_bounds {c : String} {n : ℤ} (h : keyToNoteMap c = some n) :
    60 ≤ n ∧ n ≤ 72 := by
  unfold keyToNoteMap at h
  by_cases h1 : c = "KeyA"
  · rw [if_pos h1] at h
    injection h with h
    omega
  rw [if_neg h1] at h
  by_cases h2 : c = "KeyW"
  · rw [if_pos h2] at h
    injection h with h
    omega
  rw [if_neg h2] at h
  by_cases h3 : c = "KeyS"
  · rw [if_pos h3] at h
    injection h with h
    omega
  rw [if_neg h3] at h
  by_cases h4 : c = "KeyE"
  · rw [if_pos h4] at h
    injection h with h
    omega
  rw [if_neg h4] at h
  by_cases h5 : c = "KeyD"
  · rw [if_pos h5] at h
    injection h with h
    omega
  rw [if_neg h5] at h
  by_cases h6 : c = "KeyF"
  · rw [if_pos h6] at h
    injection h with h
    omega
  rw [if_neg h6] at h
  by_cases h7 : c = "KeyT"
  · rw [if_pos h7] at h
    injection h with h
    omega
  rw [if_neg h7] at h
  by_cases h8 : c = "KeyG"
  · rw [if_pos h8] at h
    injection h with h
    omega
  rw [if_neg h8] at h
  by_cases h9 : c = "KeyY"
  · rw [if_pos h9] at h
    injection h with h
    omega
  rw [if_neg h9] at h
  by_cases h10 : c = "KeyH"
  · rw [if_pos h10] at h
    injection h with h
    omega
  rw [if_neg h10] at h
  by_cases h11 : c = "KeyU"
  · rw [if_pos h11] at h
    injection h with h
    omega
  rw [if_neg h11] at h
  by_cases h12 : c = "KeyJ"
  · rw [if_pos h12] at h
    injection h with h
    omega
  rw [if_neg h12] at h
  by_cases h13 : c = "KeyK"
  · rw [if_pos h13] at h
    injection h with h
    omega
  rw [if_neg h13] at h
  exact Option.noConfusion h

/-- The forEach scan of noteOff: from any accumulator it returns either the
accumulator itself or an attained (note, midiToFreq note) pair, never
decreases the tracked note, and bounds every note in the list. -/
theorem lastHeldStep_foldl_spec (midiToFreq : ℤ → ℚ) (codes : List String) :
    ∀ acc : ℤ × ℚ,
      (codes.foldl (lastHeldStep midiToFreq) acc = acc ∨
        ∃ c ∈ codes,
          keyToNoteMap c = some (codes.foldl (lastHeldStep midiToFreq) acc).1 ∧
          (codes.foldl (lastHeldStep midiToFreq) acc).2 =
            midiToFreq (codes.foldl (lastHeldStep midiToFreq) acc).1) ∧
      acc.1 ≤ (codes.foldl (lastHeldStep midiToFreq) acc).1 ∧
      (∀ c ∈ codes, ∀ j, keyToNoteMap c = some j →
        j ≤ (codes.foldl (lastHeldStep midiToFreq) acc).1) := by
  induction codes with
  | nil => intro acc; simp
  | cons c cs ih =>
    intro acc
    have hstep : (c :: cs).foldl (lastHeldStep midiToFreq) acc =
        cs.foldl (lastHeldStep midiToFreq) (lastHeldStep midiToFreq acc c) := rfl
    obtain ⟨iha, ihb, ihc⟩ := ih (lastHeldStep midiToFreq acc c)
    rw [hstep]
    rcases hm : keyToNoteMap c with _ | heldNote
    · have hid : lastHeldStep midiToFreq acc c = acc := by simp [lastHeldStep, hm]
      rw [hid] at iha ihb ihc ⊢
      refine ⟨?_, ihb, ?_⟩
      · rcases iha with h | ⟨c', hc', h1, h2⟩
        · exact Or.inl h
        · exact Or.inr ⟨c', List.mem_cons_of_mem _ hc', h1, h2⟩
      · intro c' hc' j hj
        rcases List.mem_cons.mp hc' with rfl | hc'
        · rw [hm] at hj; exact absurd hj (by simp)
        · exact ihc c' hc' j hj
    · by_cases hlt : acc.1 < heldNote
      · have hid : lastHeldStep midiToFreq acc c = (heldNote, midiToFreq heldNote) := by
          simp [lastHeldStep, hm, hlt]
        rw [hid] at iha ihb ihc ⊢
        refine ⟨?_, le_trans (le_of_lt hlt) ihb, ?_⟩
        · rcases iha with h | ⟨c', hc', h1, h2⟩
          · refine Or.inr ⟨c, List.mem_cons_self _ _, ?_, ?_⟩
            · rw [h, hm]
            · rw [h]
          · exact Or.inr ⟨c', List.mem_cons_of_mem _ hc', h1, h2⟩
        · intro c' hc' j hj
          rcases List.mem_cons.mp hc' with rfl | hc'
          · rw [hm] at hj
            injection hj with hj
            subst hj
            exact ihb
          · exact ihc c' hc' j hj
      · have hid : lastHeldStep midiToFreq acc c = acc := by
          simp [lastHeldStep, hm, hlt]
        rw [hid] at iha ihb ihc ⊢
        refine ⟨?_, ihb, ?_⟩
        · rcases iha with h | ⟨c', hc', h1, h2⟩
          · exact Or.inl h
          · exact Or.inr ⟨c', List.mem_cons_of_mem _ hc', h1, h2⟩
        · intro c' hc' j hj
          rcases List.mem_cons.mp hc' with rfl | hc'
          · rw [hm] at hj
            injection hj with hj
            subst hj
            exact le_trans (not_lt.mp hlt) ihb
          · exact ihc c' hc' j hj

/-- Every code in remainingHeldCodes maps to a note. -/
theorem remainingHeldCodes_isSome {pressed : List (String × Bool)} {c : String}
    (h : c ∈ remainingHeldCodes pressed) : (keyToNoteMap c).isSome := by
  obtain ⟨p, hp, rfl⟩ := List.mem_map.mp h
  have hpred := (List.mem_filter.mp hp).2
  simp only [Bool.and_eq_true] at hpred
  exact hpred.2

/-- On a non-empty list of note-mapped codes, the scan attains the maximum
note and its frequency. -/
theorem lastHeldFold_spec (midiToFreq : ℤ → ℚ) (pressed : List (String × Bool))
    (hne : remainingHeldCodes pressed ≠ []) :
    ∃ m, lastHeldFold midiToFreq (remainingHeldCodes pressed) = (m, midiToFreq m) ∧
      (∃ c ∈ remainingHeldCodes pressed, keyToNoteMap c = some m) ∧
      (∀ c ∈ remainingHeldCodes pressed, ∀ j, keyToNoteMap c = some j → j ≤ m) := by
  obtain ⟨ha, _, hc⟩ :=
    lastHeldStep_foldl_spec midiToFreq (remainingHeldCodes pressed) ((-1 : ℤ), (0 : ℚ))
  rcases ha with heq | ⟨c, hcmem, h1, h2⟩
  · exfalso
    obtain ⟨c0, hc0⟩ := List.exists_mem_of_ne_nil _ hne
    obtain ⟨n0, hn0⟩ := Option.isSome_iff_exists.mp (remainingHeldCodes_isSome hc0)
    have hle := hc c0 hc0 n0 hn0
    rw [heq] at hle
    have := (keyToNoteMap_bounds hn0).1
    omega
  · exact ⟨(lastHeldFold midiToFreq (remainingHeldCodes pressed)).1,
      Prod.ext rfl h2, ⟨c, hcmem, h1⟩, hc⟩

/-- C2: releasing the sounding note while at least one other note key is
still held transitions the voice to the highest MIDI-numbered note among
the remaining held keys, updating currentNote and currentFrequency (to
midiToFreq of that note); every scheduled action touches only the
oscillator pitches - the envelopes are neither retriggered nor released,
whatever the legato switch holds - and the pitch transition glides
exponentially or jumps according to the portamento setting. -/
theorem noteOff_steal_highest (midiToFreq : ℤ → ℚ) (sampleRate : ℚ)
    (ps : SynthParams) (vs : VoiceState) (pressed : List (String × Bool))
    (filterValue vcaValue : ℚ) (cur : ℤ) (now : ℚ)
    (hcur : vs.currentNote = some cur)
    (hheld : remainingHeldCodes pressed ≠ []) :
    let r := noteOff midiToFreq sampleRate true true ps vs pressed filterValue vcaValue cur now
    ∃ m, r.2.1.currentNote = some m ∧
      r.2.1.currentFrequency = midiToFreq m ∧
      (∃ c ∈ remainingHeldCodes pressed, keyToNoteMap c = some m) ∧
      (∀ c ∈ remainingHeldCodes pressed, ∀ j, keyToNoteMap c = some j → j ≤ m) ∧
      (∀ a ∈ r.2.2, actionTarget a = .vco1Freq ∨ actionTarget a = .vco2Freq) ∧
      (ps.portamentoTime > 1/200 →
        (∃ v, AudioAction.setTargetAtTime .vco1Freq v now (ps.portamentoTime / 4) ∈ r.2.2) ∧
        (∀ tg v t, AudioAction.setValueAtTime tg v t ∉ r.2.2)) ∧
      (¬ ps.portamentoTime > 1/200 →
        (∃ v, AudioAction.setValueAtTime .vco1Freq v now ∈ r.2.2) ∧
        (∀ tg v t c, AudioAction.setTargetAtTime tg v t c ∉ r.2.2)) := by
  obtain ⟨m, hfold, hmem, hmax⟩ := lastHeldFold_spec midiToFreq pressed hheld
  have hlen : 0 < (remainingHeldCodes pressed).length := List.length_pos.mpr hheld
  refine ⟨m, ?_⟩
  by_cases hp : ps.portamentoTime > 1/200
  · have hp0 : ps.portamentoTime > 0 := by linarith
    simp only [noteOff, hcur, if_pos hp, if_pos hp0, hfold]
    simp [hlen, hmem, hmax, actionTarget]
    exact ⟨hmax, by linarith⟩
  · have hp0 : ¬ (0:ℚ) > 0 := by norm_num
    simp only [noteOff, hcur, if_neg hp, if_neg hp0, hfold]
    simp [hlen, hmem, hmax, actionTarget]
    exact ⟨hmax, by linarith⟩

/-- C2 witness: with note 67 sounding and keys for notes 60 and 64 still
held, releasing 67 steals to 64, never touching the envelopes. -/
theorem noteOff_steal_highest_witness :
    let pressed := [("KeyA", true), ("KeyD", true), ("KeyG", false)]
    let r := noteOff (fun _ => 330) 44100 true true defaultParams ⟨some 67, 392⟩
      pressed 20000 1 67 0
    ∃ m, r.2.1.currentNote = some m ∧
      r.2.1.currentFrequency = (fun _ : ℤ => (330:ℚ)) m ∧
      (∃ c ∈ remainingHeldCodes pressed, keyToNoteMap c = some m) ∧
      (∀ c ∈ remainingHeldCodes pressed, ∀ j, keyToNoteMap c = some j → j ≤ m) ∧
      (∀ a ∈ r.2.2, actionTarget a = .vco1Freq ∨ actionTarget a = .vco2Freq) ∧
      ((0:ℚ) > 1/200 →
        (∃ v, AudioAction.setTargetAtTime .vco1Freq v 0 ((0:ℚ) / 4) ∈ r.2.2) ∧
        (∀ tg v t, AudioAction.setValueAtTime tg v t ∉ r.2.2)) ∧
      (¬ (0:ℚ) > 1/200 →
        (∃ v, AudioAction.setValueAtTime .vco1Freq v 0 ∈ r.2.2) ∧
        (∀ tg v t c, AudioAction.setTargetAtTime tg v t c ∉ r.2.2)) :=
  noteOff_steal_highest (fun _ => 330) 44100 defaultParams ⟨some 67, 392⟩
    [("KeyA", true), ("KeyD", true), ("KeyG", false)] 20000 1 67 0 rfl (by decide)

/-- With an infinite samples-per-cycle threshold the per-sample loop only
advances the phase and holds the value: no draw ever happens. -/
theorem runFrames_none (rs : ℕ → ℚ) :
    ∀ (n : ℕ) (p v : ℚ) (k : ℕ),
      runFrames none rs n p v k = ⟨p + n, v, k, List.replicate n v⟩ := by
  intro n
  induction n with
  | zero => intro p v k; simp [runFrames]
  | succ n ih =>
    intro p v k
    have hphase : p + 1 + (n : ℚ) = p + ((n + 1 : ℕ) : ℚ) := by push_cast; ring
    simp only [runFrames, ih, List.replicate_succ, hphase]

/-- One process call with a non-positive k-rate frequency freezes: the
stored interval becomes (or stays) infinite, no random value is drawn, and
every output sample of the block is the held value. -/
theorem lfoProcess_freeze (sr f : ℚ) (rs : ℕ → ℚ) (blockLen numChannels : ℕ)
    (st : LfoState) (draws : ℕ) (hf : f ≤ 0)
    (hsync : st.lastFrequency ≤ 0 → st.updateInterval = none) :
    lfoProcess sr f rs blockLen numChannels st draws =
      (⟨st.phase + blockLen, st.currentValue, none, f⟩, draws,
       List.replicate numChannels (List.replicate blockLen st.currentValue)) := by
  have hnotpos : ¬ f > 0 := by linarith
  by_cases hne : f ≠ st.lastFrequency
  · simp [lfoProcess, hne, recalculateInterval, hnotpos, runFrames_none]
  · push_neg at hne
    have hint : st.updateInterval = none := hsync (by rw [← hne]; exact hf)
    obtain ⟨p0, v0, i0, l0⟩ := st
    simp only at hne hint
    subst hint
    simp [lfoProcess, runFrames_none, ← hne]

/-- C9: once the frequency parameter is set to 0 (or any value ≤ 0), the
held-value generator never refreshes again: over any number of subsequent
render quanta with non-positive frequency, no random value is ever drawn,
the internal value never changes, and every sample of every channel of
every block equals the last drawn value. -/
theorem lfo_freeze_nonpositive (sr : ℚ) (rs : ℕ → ℚ) (blocks : List (ℚ × ℕ × ℕ))
    (st : LfoState) (draws : ℕ)
    (hblocks : ∀ b ∈ blocks, b.1 ≤ 0)
    (hsync : st.lastFrequency ≤ 0 → st.updateInterval = none) :
    (lfoProcessMany sr rs blocks st draws).2.1 = draws ∧
    (lfoProcessMany sr rs blocks st draws).1.currentValue = st.currentValue ∧
    (∀ out ∈ (lfoProcessMany sr rs blocks st draws).2.2,
      ∀ chan ∈ out, ∀ x ∈ chan, x = st.currentValue) := by
  induction blocks generalizing st draws with
  | nil => simp [lfoProcessMany]
  | cons b bs ih =>
    have hb : b.1 ≤ 0 := hblocks b (List.mem_cons_self _ _)
    have hhead := lfoProcess_freeze sr b.1 rs b.2.1 b.2.2 st draws hb hsync
    have hrest := ih (⟨st.phase + b.2.1, st.currentValue, none, b.1⟩) draws
      (fun b' hb' => hblocks b' (List.mem_cons_of_mem _ hb'))
      (fun _ => rfl)
    simp only [lfoProcessMany, hhead]
    refine ⟨hrest.1, hrest.2.1, ?_⟩
    intro out hout chan hchan x hx
    rcases List.mem_cons.mp hout with rfl | hout
    · have h1 := List.eq_of_mem_replicate hchan
      subst h1
      exact List.eq_of_mem_replicate hx
    · exact hrest.2.2 out hout chan hchan x hx

/-- C9 witness: with the frequency at 0 for two successive blocks, a
generator holding value 7/10 keeps outputting 7/10 and consumes no
randomness. -/
theorem lfo_freeze_nonpositive_witness :
    (lfoProcessMany 44100 (fun _ => 1/3) [(0, 3, 2), (-1, 2, 1)] ⟨1/2, 7/10, some 8820, 5⟩ 4).2.1 = 4 ∧
    (lfoProcessMany 44100 (fun _ => 1/3) [(0, 3, 2), (-1, 2, 1)] ⟨1/2, 7/10, some 8820, 5⟩ 4).1.currentValue = 7/10 ∧
    (∀ out ∈ (lfoProcessMany 44100 (fun _ => 1/3) [(0, 3, 2), (-1, 2, 1)] ⟨1/2, 7/10, some 8820, 5⟩ 4).2.2,
      ∀ chan ∈ out, ∀ x ∈ chan, x = 7/10) :=
  lfo_freeze_nonpositive 44100 (fun _ => 1/3) [(0, 3, 2), (-1, 2, 1)]
    ⟨1/2, 7/10, some 8820, 5⟩ 4 (by norm_num) (by norm_num)

/-- Invariant of the per-sample loop with a finite threshold T ≥ 1:
starting from a phase in [0, T), the final phase equals the start phase
plus the frame count minus T per draw (the remainder is preserved, never
reset), stays in [0, T), and the held value is the start value until the
first draw and the last drawn value rs (draws - 1) * 2 - 1 afterwards. -/
theorem runFrames_some_spec (T : ℚ) (hT : 1 ≤ T) (rs : ℕ → ℚ) :
    ∀ (n : ℕ) (p v : ℚ) (k : ℕ), 0 ≤ p → p < T →
      k ≤ (runFrames (some T) rs n p v k).draws ∧
      (runFrames (some T) rs n p v k).phase =
        p + n - (((runFrames (some T) rs n p v k).draws : ℚ) - k) * T ∧
      0 ≤ (runFrames (some T) rs n p v k).phase ∧
      (runFrames (some T) rs n p v k).phase < T ∧
      (((runFrames (some T) rs n p v k).draws = k ∧
          (runFrames (some T) rs n p v k).value = v) ∨
        (k < (runFrames (some T) rs n p v k).draws ∧
          (runFrames (some T) rs n p v k).value =
            rs ((runFrames (some T) rs n p v k).draws - 1) * 2 - 1)) := by
  intro n
  induction n with
  | zero =>
    intro p v k hp0 hpT
    simp only [runFrames]
    exact ⟨le_refl _, by push_cast; ring, hp0, hpT, Or.inl ⟨by simp, by simp⟩⟩
  | succ n ih =>
    intro p v k hp0 hpT
    simp only [runFrames]
    by_cases hge : p + 1 ≥ T
    · rw [if_pos hge]
      dsimp only
      have h1 : (0:ℚ) ≤ p + 1 - T := by linarith
      have h2 : p + 1 - T < T := by linarith
      obtain ⟨ka, kb, kc, kd, ke⟩ := ih (p + 1 - T) (rs k * 2 - 1) (k + 1) h1 h2
      refine ⟨by omega, ?_, kc, kd, ?_⟩
      · rw [kb]; push_cast; ring
      · rcases ke with ⟨hd, hv⟩ | ⟨hd, hv⟩
        · right
          refine ⟨by omega, ?_⟩
          rw [hv, hd]
          simp
        · right
          exact ⟨by omega, hv⟩
    · rw [if_neg hge]
      dsimp only
      have h2 : p + 1 < T := lt_of_not_ge hge
      obtain ⟨ka, kb, kc, kd, ke⟩ := ih (p + 1) v k (by linarith) h2
      refine ⟨ka, ?_, kc, kd, ke⟩
      rw [kb]; push_cast; ring

/-- C8 counterexample: the claimed cadence - a fresh random value exactly
every ceil(sampleRate / f) frames, so n / ceil(T) draws after n frames -
fails at sampleRate 5, f = 2 (threshold T = 5/2): after 5 frames the loop
has drawn twice (at frames 3 and 5), but 5 / ceil(5/2) = 1. -/
theorem lfo_draw_cadence_counterexample :
    ¬ specDrawsEveryCeil ((5 : ℚ)/2) (fun _ => 0) 0 := by
  intro h
  have hceil : (⌈(5:ℚ)/2⌉ : ℤ) = 3 := by
    rw [Int.ceil_eq_iff]
    norm_num
  have h5 := h 5
  rw [hceil] at h5
  norm_num [runFrames] at h5
  exact absurd h5 (by decide)

/-- C8 (amended): with constant frequency f with 0 < f ≤ sampleRate, a new
uniform random value in [-1, 1) is drawn whenever the phase accumulator
(incremented by 1 per frame) reaches the threshold T = sampleRate / f, at
which point T is subtracted from it (remainder preserved, never reset to
zero): after n frames exactly floor(n / T) values have been drawn and the
phase equals n - floor(n / T) * T, which lies in [0, T) - so consecutive
draws are floor(T) or ceil(T) frames apart, and exactly ceil(T) only when
T is an integer; the process call fans the identical per-frame held values
out to every output channel. -/
theorem lfo_draw_cadence (sr f : ℚ) (rs : ℕ → ℚ) (v0 : ℚ) (n numChannels : ℕ)
    (h0 : 0 < f) (hsf : f ≤ sr) :
    ((runFrames (some (sr / f)) rs n 0 v0 0).draws : ℤ) = ⌊(n : ℚ) / (sr / f)⌋ ∧
    (runFrames (some (sr / f)) rs n 0 v0 0).phase =
      (n : ℚ) - ((runFrames (some (sr / f)) rs n 0 v0 0).draws : ℚ) * (sr / f) ∧
    0 ≤ (runFrames (some (sr / f)) rs n 0 v0 0).phase ∧
    (runFrames (some (sr / f)) rs n 0 v0 0).phase < sr / f ∧
    ((∀ j, 0 ≤ rs j ∧ rs j < 1) →
      (runFrames (some (sr / f)) rs n 0 v0 0).draws ≠ 0 →
      -1 ≤ (runFrames (some (sr / f)) rs n 0 v0 0).value ∧
      (runFrames (some (sr / f)) rs n 0 v0 0).value < 1) ∧
    lfoProcess sr f rs n numChannels ⟨0, v0, some (sr / f), f⟩ 0 =
      (⟨(runFrames (some (sr / f)) rs n 0 v0 0).phase,
        (runFrames (some (sr / f)) rs n 0 v0 0).value, some (sr / f), f⟩,
       (runFrames (some (sr / f)) rs n 0 v0 0).draws,
       List.replicate numChannels (runFrames (some (sr / f)) rs n 0 v0 0).outs) := by
  have hT1 : 1 ≤ sr / f := (le_div_iff h0).mpr (by linarith)
  have hT0 : (0:ℚ) < sr / f := by linarith
  obtain ⟨ka, kb, kc, kd, ke⟩ := runFrames_some_spec (sr / f) hT1 rs n 0 v0 0 le_rfl hT0
  have kb' : (runFrames (some (sr / f)) rs n 0 v0 0).phase =
      (n : ℚ) - ((runFrames (some (sr / f)) rs n 0 v0 0).draws : ℚ) * (sr / f) := by
    rw [kb]; push_cast; ring
  refine ⟨?_, kb', kc, kd, ?_, ?_⟩
  · symm
    rw [Int.floor_eq_iff]
    constructor
    · rw [le_div_iff hT0]
      push_cast
      nlinarith [kc, kb']
    · rw [div_lt_iff hT0]
      push_cast
      nlinarith [kd, kb']
  · intro hrs hd0
    rcases ke with ⟨hd, _⟩ | ⟨_, hv⟩
    · exact absurd hd hd0
    · obtain ⟨hr0, hr1⟩ := hrs ((runFrames (some (sr / f)) rs n 0 v0 0).draws - 1)
      rw [hv]
      constructor <;> linarith
  · simp [lfoProcess]

/-- C8 witness: sampleRate 5, f = 2, five frames: two draws (floor(5/2.5)
= 2), phase back to 0, held value is the second draw, and both output
channels carry the same frame list. -/
theorem lfo_draw_cadence_witness :
    ((runFrames (some ((5:ℚ) / 2)) (fun _ => 1/2) 5 0 0 0).draws : ℤ) =
      ⌊((5:ℕ) : ℚ) / ((5:ℚ) / 2)⌋ ∧
    lfoProcess 5 2 (fun _ => 1/2) 5 2 ⟨0, 0, some ((5:ℚ) / 2), 2⟩ 0 =
      (⟨(runFrames (some ((5:ℚ) / 2)) (fun _ => 1/2) 5 0 0 0).phase,
        (runFrames (some ((5:ℚ) / 2)) (fun _ => 1/2) 5 0 0 0).value, some ((5:ℚ) / 2), 2⟩,
       (runFrames (some ((5:ℚ) / 2)) (fun _ => 1/2) 5 0 0 0).draws,
       List.replicate 2 (runFrames (some ((5:ℚ) / 2)) (fun _ => 1/2) 5 0 0 0).outs) := by
  have h := lfo_draw_cadence 5 2 (fun _ => 1/2) 0 5 2 (by norm_num) (by norm_num)
  exact ⟨h.1, h.2.2.2.2.2⟩

/-! ### Lemmas about the pressedKeys object operations -/

/-- A truthy read means the entry is in the object. -/
theorem jsGet_true_mem {l : List (String × Bool)} {c : String}
    (h : jsGet l c = true) : (c, true) ∈ l := by
  induction l with
  | nil => simp [jsGet] at h
  | cons p rest ih =>
    obtain ⟨k, v⟩ := p
    by_cases hc : c = k
    · subst hc
      rw [jsGet, if_pos rfl] at h
      subst h
      exact List.mem_cons_self _ _
    · rw [jsGet, if_neg hc] at h
      exact List.mem_cons_of_mem _ (ih h)

/-- Writing a property puts the entry in the object. -/
theorem mem_jsSet_self (l : List (String × Bool)) (c : String) (v : Bool) :
    (c, v) ∈ jsSet l c v := by
  induction l with
  | nil => simp [jsSet]
  | cons p rest ih =>
    obtain ⟨k, w⟩ := p
    by_cases hc : c = k
    · rw [jsSet, if_pos hc]
      exact List.mem_cons_self _ _
    · rw [jsSet, if_neg hc]
      exact List.mem_cons_of_mem _ ih

/-- Writing one property leaves the entries of other properties. -/
theorem mem_jsSet_of_ne {l : List (String × Bool)} {c' : String} {w : Bool}
    (c : String) (v : Bool) (h : (c', w) ∈ l) (hne : c' ≠ c) :
    (c', w) ∈ jsSet l c v := by
  induction l with
  | nil => simp at h
  | cons p rest ih =>
    obtain ⟨k, w0⟩ := p
    rcases List.mem_cons.mp h with heq | hmem
    · injection heq with heq1 heq2
      subst heq1; subst heq2
      rw [jsSet, if_neg (fun hx => hne (Eq.symm hx))]
      exact List.mem_cons_self _ _
    · by_cases hc : c = k
      · rw [jsSet, if_pos hc]
        exact List.mem_cons_of_mem _ hmem
      · rw [jsSet, if_neg hc]
        exact List.mem_cons_of_mem _ (ih hmem)

/-- A truthy entry surviving a falsy write was already there. -/
theorem mem_of_mem_jsSet_false {l : List (String × Bool)} {c c' : String}
    (h : (c', true) ∈ jsSet l c false) : (c', true) ∈ l := by
  induction l with
  | nil =>
    simp [jsSet] at h
  | cons p rest ih =>
    obtain ⟨k, w0⟩ := p
    by_cases hc : c = k
    · rw [jsSet, if_pos hc] at h
      rcases List.mem_cons.mp h with heq | hmem
      · exact absurd heq (by simp)
      · exact List.mem_cons_of_mem _ hmem
    · rw [jsSet, if_neg hc] at h
      rcases List.mem_cons.mp h with heq | hmem
      · exact heq ▸ List.mem_cons_self _ _
      · exact List.mem_cons_of_mem _ (ih hmem)

/-- A held note-mapped entry makes heldNoteKeys non-empty. -/
theorem heldNoteKeys_ne_nil_of_mem {l : List (String × Bool)} {c : String}
    (hmem : (c, true) ∈ l) (hsome : (keyToNoteMap c).isSome) :
    heldNoteKeys l ≠ [] := by
  have : (c, true) ∈ heldNoteKeys l :=
    List.mem_filter.mpr ⟨hmem, by simp [hsome]⟩
  exact List.ne_nil_of_mem this

/-- A non-empty heldNoteKeys yields a held note-mapped entry. -/
theorem exists_mem_of_heldNoteKeys_ne_nil {l : List (String × Bool)}
    (h : heldNoteKeys l ≠ []) : ∃ c, (c, true) ∈ l ∧ (keyToNoteMap c).isSome := by
  obtain ⟨p, hp⟩ := List.exists_mem_of_ne_nil _ h
  obtain ⟨hmem, hpred⟩ := List.mem_filter.mp hp
  simp only [Bool.and_eq_true] at hpred
  obtain ⟨k, v⟩ := p
  simp only at hpred
  obtain ⟨hv, hsome⟩ := hpred
  subst hv
  exact ⟨k, hmem, hsome⟩

/-- A code among the remaining held codes is a held note-mapped entry. -/
theorem mem_remainingHeldCodes {l : List (String × Bool)} {c : String}
    (h : c ∈ remainingHeldCodes l) : (c, true) ∈ l ∧ (keyToNoteMap c).isSome := by
  obtain ⟨p, hp, rfl⟩ := List.mem_map.mp h
  obtain ⟨hmem, hpred⟩ := List.mem_filter.mp hp
  simp only [Bool.and_eq_true] at hpred
  obtain ⟨k, v⟩ := p
  simp only at hpred ⊢
  obtain ⟨hv, hsome⟩ := hpred
  subst hv
  exact ⟨hmem, hsome⟩

/-- remainingHeldCodes is empty exactly when heldNoteKeys is. -/
theorem remainingHeldCodes_eq_nil {l : List (String × Bool)} :
    remainingHeldCodes l = [] ↔ heldNoteKeys l = [] := by
  simp [remainingHeldCodes]

/-- noteOn with a running engine always makes the given note the sounding
note at the given base frequency (both the transition and the first-note
branches do). -/
theorem noteOn_voice (sampleRate : ℚ) (ps : SynthParams) (vs : VoiceState)
    (note : ℤ) (freq now : ℚ) :
    (noteOn sampleRate true ps vs note freq now).2.1 = ⟨some note, freq⟩ := by
  cases h : vs.currentNote <;> simp [noteOn, h]

/-- The voice-state component of noteOff on an initialized, resumed engine
with a sounding note. -/
theorem noteOff_voice (midiToFreq : ℤ → ℚ) (sampleRate : ℚ) (ps : SynthParams)
    (vs : VoiceState) (pressed : List (String × Bool)) (filterValue vcaValue : ℚ)
    (note : ℤ) (now : ℚ) {cur : ℤ} (hcur : vs.currentNote = some cur) :
    (noteOff midiToFreq sampleRate true true ps vs pressed filterValue vcaValue note now).2.1 =
      if note = cur then
        (if 0 < (remainingHeldCodes pressed).length then
          ⟨some (lastHeldFold midiToFreq (remainingHeldCodes pressed)).1,
           (lastHeldFold midiToFreq (remainingHeldCodes pressed)).2⟩
        else ⟨none, 0⟩)
      else vs := by
  simp only [noteOff, hcur]
  split_ifs <;> simp_all

/-- Pressing a fresh note key with the engine running preserves the state
invariant whatever the bookkeeping flags become, as long as both end up
true. -/
theorem pressAndPlay_inv (midiToFreq : ℤ → ℚ) (sampleRate : ℚ) {s : SynthState}
    (hinv : StateInv s) (code : String) (note : ℤ) (now : ℚ)
    (hm : keyToNoteMap code = some note) (initAfter resumedAfter : Bool)
    (hresumed : resumedAfter = true) (hinit : initAfter = true) :
    StateInv ⟨(noteOn sampleRate true s.params s.voice note (midiToFreq note) now).1,
              (noteOn sampleRate true s.params s.voice note (midiToFreq note) now).2.1,
              jsSet s.pressedKeys code true, initAfter, resumedAfter⟩ := by
  have hv := noteOn_voice sampleRate s.params s.voice note (midiToFreq note) now
  have hmem : (code, true) ∈ jsSet s.pressedKeys code true := mem_jsSet_self _ _ _
  have hsome : (keyToNoteMap code).isSome := by simp [hm]
  have hne : heldNoteKeys (jsSet s.pressedKeys code true) ≠ [] :=
    heldNoteKeys_ne_nil_of_mem hmem hsome
  refine ⟨?_, ?_, fun _ => hresumed, fun _ => hinit⟩
  · simp only [hv]
    exact ⟨fun hx => absurd hx (by simp), fun hx => absurd hx hne⟩
  · intro n hn
    simp only [hv] at hn
    injection hn with hn
    subst hn
    exact ⟨code, hm, hmem⟩

/-- Each keyboard event preserves the state invariant. -/
theorem stepEvent_preserves_inv (midiToFreq : ℤ → ℚ) (sampleRate : ℚ)
    (s : SynthState) (e : KeyEvent) (hinv : StateInv s) :
    StateInv (stepEvent midiToFreq sampleRate s e) := by
  obtain ⟨h1, h2, h3, h4⟩ := hinv
  rcases e with ⟨code, rf, mh, ro, now⟩ | ⟨code, fv, vv, now⟩
  · -- keydown
    simp only [stepEvent, handleKeydown]
    cases mh
    · rw [if_neg (by simp)]
      rcases hm : keyToNoteMap code with _ | note
      · simp only [hm]
        exact ⟨h1, h2, h3, h4⟩
      · simp only [hm]
        by_cases hguard : (jsGet s.pressedKeys code || rf) = true
        · rw [if_pos hguard]
          exact ⟨h1, h2, h3, h4⟩
        · rw [if_neg hguard]
          cases hres : s.isAudioResumed
          · rw [if_neg (by simp)]
            cases hini : s.isAudioInitialized
            · rw [if_neg (by simp)]
              exact ⟨h1, h2, h3, h4⟩
            · rw [if_pos rfl]
              cases ro
              · rw [if_neg (by simp)]
                refine ⟨h1, h2, ?_, fun _ => rfl⟩
                intro hx
                have hcontra := h3 hx
                rw [hres] at hcontra
                exact hcontra
              · rw [if_pos rfl]
                exact pressAndPlay_inv midiToFreq sampleRate ⟨h1, h2, h3, h4⟩
                  code note now hm true true rfl rfl
          · rw [if_pos rfl]
            exact pressAndPlay_inv midiToFreq sampleRate ⟨h1, h2, h3, h4⟩
              code note now hm s.isAudioInitialized true rfl (h4 hres)
    · rw [if_pos rfl]
      exact ⟨h1, h2, h3, h4⟩
  · -- keyup
    simp only [stepEvent, handleKeyup]
    rcases hm : keyToNoteMap code with _ | note
    · simp only [hm]
      exact ⟨h1, h2, h3, h4⟩
    · simp only [hm]
      cases hget : jsGet s.pressedKeys code
      · rw [if_neg (by simp)]
        exact ⟨h1, h2, h3, h4⟩
      · rw [if_pos rfl]
        have hmemc : (code, true) ∈ s.pressedKeys := jsGet_true_mem hget
        have hsomec : (keyToNoteMap code).isSome := by simp [hm]
        have hheld : heldNoteKeys s.pressedKeys ≠ [] :=
          heldNoteKeys_ne_nil_of_mem hmemc hsomec
        have hres : s.isAudioResumed = true := h3 hheld
        have hini : s.isAudioInitialized = true := h4 hres
        have hcurne : s.voice.currentNote ≠ none := fun hx => hheld (h1.mp hx)
        obtain ⟨cur, hcur⟩ := Option.ne_none_iff_exists'.mp hcurne
        rw [hini, hres]
        have hvoice := noteOff_voice midiToFreq sampleRate s.params s.voice
          (jsSet s.pressedKeys code false) fv vv note now hcur
        by_cases hnc : note = cur
        · rw [if_pos hnc] at hvoice
          by_cases hrem : 0 < (remainingHeldCodes (jsSet s.pressedKeys code false)).length
          · rw [if_pos hrem] at hvoice
            have hremne : remainingHeldCodes (jsSet s.pressedKeys code false) ≠ [] :=
              fun hx => by rw [hx] at hrem; exact absurd hrem (by simp)
            obtain ⟨m, hfold, ⟨c', hc'mem, hc'note⟩, _⟩ :=
              lastHeldFold_spec midiToFreq (jsSet s.pressedKeys code false) hremne
            obtain ⟨hc'held, _⟩ := mem_remainingHeldCodes hc'mem
            have hheldne : heldNoteKeys (jsSet s.pressedKeys code false) ≠ [] :=
              fun hx => hremne (remainingHeldCodes_eq_nil.mpr hx)
            refine ⟨?_, ?_, fun _ => rfl, fun _ => rfl⟩
            · simp only [hvoice, hfold]
              exact ⟨fun hx => absurd hx (by simp), fun hx => absurd hx hheldne⟩
            · intro n hn
              simp only [hvoice, hfold] at hn
              injection hn with hn
              subst hn
              exact ⟨c', hc'note, hc'held⟩
          · rw [if_neg hrem] at hvoice
            have hremnil : remainingHeldCodes (jsSet s.pressedKeys code false) = [] := by
              rcases List.eq_nil_or_concat (remainingHeldCodes (jsSet s.pressedKeys code false))
                with hx | ⟨l0, a, hx⟩
              · exact hx
              · exfalso; apply hrem; rw [hx]; simp
            have hheldnil : heldNoteKeys (jsSet s.pressedKeys code false) = [] :=
              remainingHeldCodes_eq_nil.mp hremnil
            refine ⟨?_, ?_, fun _ => rfl, fun _ => rfl⟩
            · simp only [hvoice]
              exact ⟨fun _ => hheldnil, fun _ => trivial⟩
            · intro n hn
              simp only [hvoice] at hn
              exact absurd hn (by simp)
        · rw [if_neg hnc] at hvoice
          obtain ⟨c', hc'note, hc'mem⟩ := h2 cur hcur
          have hc'ne : c' ≠ code := by
            intro hx
            rw [hx, hm] at hc'note
            injection hc'note with hc'note
            exact hnc hc'note
          have hc'mem1 : (c', true) ∈ jsSet s.pressedKeys code false :=
            mem_jsSet_of_ne _ _ hc'mem hc'ne
          have hheldne : heldNoteKeys (jsSet s.pressedKeys code false) ≠ [] :=
            heldNoteKeys_ne_nil_of_mem hc'mem1 (by simp [hc'note])
          refine ⟨?_, ?_, fun _ => rfl, fun _ => rfl⟩
          · simp only [hvoice, hcur]
            exact ⟨fun hx => absurd hx (by simp), fun hx => absurd hx hheldne⟩
          · intro n hn
            simp only [hvoice, hcur] at hn
            injection hn with hn
            subst hn
            exact ⟨c', hc'note, hc'mem1⟩

/-- Processing any event sequence preserves the state invariant. -/
theorem runEvents_preserves_inv (midiToFreq : ℤ → ℚ) (sampleRate : ℚ)
    (events : List KeyEvent) :
    ∀ s : SynthState, StateInv s →
      StateInv (runEvents midiToFreq sampleRate s events) := by
  induction events with
  | nil => exact fun s h => h
  | cons e es ih =>
    intro s h
    exact ih _ (stepEvent_preserves_inv midiToFreq sampleRate s e h)

/-- C3: for every sequence of key-down/key-up events processed by the
keyboard handlers from a fresh state (no keys tracked, voice silent,
resumption implying initialization), the voice is sounding -
currentNote non-null - exactly when at least one pressed key mapping to a
note is held. -/
theorem currentNote_iff_heldNoteKeys (midiToFreq : ℤ → ℚ) (sampleRate : ℚ)
    (params0 : SynthParams) (init0 res0 : Bool) (events : List KeyEvent)
    (hflags : res0 = true → init0 = true) :
    ((runEvents midiToFreq sampleRate ⟨params0, ⟨none, 0⟩, [], init0, res0⟩ events).voice.currentNote ≠ none ↔
      heldNoteKeys (runEvents midiToFreq sampleRate ⟨params0, ⟨none, 0⟩, [], init0, res0⟩ events).pressedKeys ≠ []) := by
  have hinv0 : StateInv ⟨params0, ⟨none, 0⟩, [], init0, res0⟩ := by
    refine ⟨by simp [heldNoteKeys], ?_, ?_, hflags⟩
    · intro n hn
      exact absurd hn (by simp)
    · intro hx
      exact absurd rfl hx
  have hinv : StateInv (runEvents midiToFreq sampleRate ⟨params0, ⟨none, 0⟩, [], init0, res0⟩ events) :=
    runEvents_preserves_inv midiToFreq sampleRate events _ hinv0
  exact not_iff_not.mpr ⟨fun hx => hinv.1.mp hx, fun hx => hinv.1.mpr hx⟩

/-- C3 witness: pressing the keys for notes 60 and 62 and releasing the
first leaves the voice sounding while a note key is held. -/
theorem currentNote_iff_heldNoteKeys_witness :
    ((runEvents (fun _ => 440) 44100 ⟨defaultParams, ⟨none, 0⟩, [], true, true⟩
        [.down "KeyA" false false false 0, .down "KeyS" false false false 1,
         .up "KeyA" 20000 1 2]).voice.currentNote ≠ none ↔
      heldNoteKeys (runEvents (fun _ => 440) 44100 ⟨defaultParams, ⟨none, 0⟩, [], true, true⟩
        [.down "KeyA" false false false 0, .down "KeyS" false false false 1,
         .up "KeyA" 20000 1 2]).pressedKeys ≠ []) :=
  currentNote_iff_heldNoteKeys (fun _ => 440) 44100 defaultParams true true
    [.down "KeyA" false false false 0, .down "KeyS" false false false 1,
     .up "KeyA" 20000 1 2] (fun h => h)

end MonoSynth
